import Mathlib

/-!
Verification of the brand-visibility analysis engine
(package `pkg`, file internal/pkg/utils.go).

Strings are modelled as lists of characters (`List Char`); Go's
byte-level operations coincide with this model on the ASCII texts the
engine processes, and `strings.ToLower` / `unicode.IsSpace` are modelled
by their ASCII behaviour.  Go maps carry no iteration order, so every
`map` of the source is modelled as an association list: the list order
stands for the (unspecified) iteration order of one concrete run, and a
statement proved for every association list holds for every possible
iteration order of the Go map.
-/

namespace AEO

/-- Convert a Lean string literal to the character-list model. -/
def str (s : String) : List Char := s.data

/-- ASCII word character, the class Go regexp's word-boundary assertion
uses: letters, digits and the underscore. -/
def isWordChar (c : Char) : Bool := c.isAlphanum || c == '_'

/-- ASCII whitespace as recognised by `unicode.IsSpace` /
`strings.TrimSpace` / `strings.Fields`. -/
def isSpaceChar (c : Char) : Bool :=
  c == ' ' || c == '\t' || c == '\n' || c == '\x0b' || c == '\x0c' || c == '\r'

/-- Model of `strings.ToLower` (ASCII case mapping). -/
def lower (s : List Char) : List Char := s.map Char.toLower

/-- Model of `strings.TrimSpace`: drop whitespace from both ends. -/
def trim (s : List Char) : List Char :=
  ((s.dropWhile isSpaceChar).reverse.dropWhile isSpaceChar).reverse

/-- Accumulator form of `strings.Fields`: split on runs of whitespace. -/
def fieldsAux (cur : List Char) : List Char → List (List Char)
  | [] => if cur.isEmpty then [] else [cur.reverse]
  | c :: rest =>
    if isSpaceChar c then
      if cur.isEmpty then fieldsAux [] rest else cur.reverse :: fieldsAux [] rest
    else fieldsAux (c :: cur) rest

/-- Model of `strings.Fields`. -/
def fields (s : List Char) : List (List Char) := fieldsAux [] s

/-- Model of one `aliasesMap[k] = struct{}{}` insertion.  The association
list records the key set of the Go map; its order is the insertion order,
one canonical enumeration of the unordered map. -/
def insertKey (k : List Char) (l : List (List Char)) : List (List Char) :=
  if k ∈ l then l else l ++ [k]

/-- Model of `GenerateAliases` (utils.go:47-86): the key set of the
`aliasesMap` the function builds.  The Go function returns these keys in
unspecified map-iteration order; a run's output is some permutation of
this list. -/
def generateAliases (name : List Char) : List (List Char) :=
  let n := lower (trim name)
  let parts := fields n
  let noSpace := parts.flatten
  let m := insertKey n []
  let m := insertKey noSpace m
  let m := match parts with
    | [] => m
    | p :: _ => insertKey p m
  let m := if parts.length > 1 then insertKey (parts.filterMap List.head?) m else m
  insertKey (noSpace.filter (fun c => !(c == '-' || c == '_'))) m

theorem insertKey_nodup (k : List Char) (l : List (List Char)) (h : l.Nodup) :
    (insertKey k l).Nodup := by
  unfold insertKey
  split
  · exact h
  · next hk => simpa [List.nodup_append, h] using hk

theorem mem_insertKey_self (k : List Char) (l : List (List Char)) : k ∈ insertKey k l := by
  unfold insertKey
  split
  · assumption
  · simp

theorem mem_insertKey_of_mem (k x : List Char) (l : List (List Char)) (h : x ∈ l) :
    x ∈ insertKey k l := by
  unfold insertKey
  split
  · exact h
  · simp [h]

theorem insertKey_ne_nil (k : List Char) (l : List (List Char)) (h : l ≠ []) :
    insertKey k l ≠ [] := by
  unfold insertKey
  split
  · exact h
  · simp

theorem generateAliases_nodup (name : List Char) : (generateAliases name).Nodup := by
  unfold generateAliases
  apply insertKey_nodup
  split
  · apply insertKey_nodup
    split
    · exact insertKey_nodup _ _ (insertKey_nodup _ _ List.nodup_nil)
    · exact insertKey_nodup _ _ (insertKey_nodup _ _ (insertKey_nodup _ _ List.nodup_nil))
  · split
    · exact insertKey_nodup _ _ (insertKey_nodup _ _ List.nodup_nil)
    · exact insertKey_nodup _ _ (insertKey_nodup _ _ (insertKey_nodup _ _ List.nodup_nil))

theorem mem_generateAliases_name (name : List Char) :
    lower (trim name) ∈ generateAliases name := by
  unfold generateAliases
  apply mem_insertKey_of_mem
  split
  · apply mem_insertKey_of_mem
    split
    · exact mem_insertKey_of_mem _ _ _ (mem_insertKey_self _ _)
    · exact mem_insertKey_of_mem _ _ _ (mem_insertKey_of_mem _ _ _ (mem_insertKey_self _ _))
  · split
    · exact mem_insertKey_of_mem _ _ _ (mem_insertKey_self _ _)
    · exact mem_insertKey_of_mem _ _ _ (mem_insertKey_of_mem _ _ _ (mem_insertKey_self _ _))

theorem generateAliases_ne_nil (name : List Char) : generateAliases name ≠ [] := by
  have h := mem_generateAliases_name name
  intro hnil
  rw [hnil] at h
  exact List.not_mem_nil _ h

/-!
Whole-word matching.  `CountBrandMentions` (utils.go:112-154) matches an
alias with the regex `\b` + QuoteMeta(alias) + `\b`: the quoted alias is a
literal, and `\b` holds at a position exactly when one neighbour is an
ASCII word character and the other (or the text edge) is not.  The working
text is modelled as a list of `(original position, character)` pairs so
that erased matches can be accounted against positions of the original
text; counting ignores the positions.
-/

/-- Go regexp word boundary between two neighbouring characters (`none` is
the text edge). -/
def boundary (prev next : Option Char) : Bool :=
  (match prev with | none => false | some c => isWordChar c)
    != (match next with | none => false | some c => isWordChar c)

/-- A match of the literal pattern `p` under `\b p \b` at the start of
`w`, where `prev` is the character just before this position.  For the
empty pattern both assertions collapse to a single word boundary at the
position, which is how Go regexp treats the empty-alias regex. -/
def matchAt (p : List Char) (prev : Option Char) (w : List Char) : Bool :=
  p.isPrefixOf w
    && boundary prev w.head?
    && boundary ((p.getLast?).orElse (fun _ => prev)) ((w.drop p.length).head?)

/-- Number of word-boundary positions of the text: the match count of the
empty-alias regex, which `FindAllStringIndex` reports as empty matches at
every boundary position including the end of the text. -/
def countBoundaries (prev : Option Char) : List Char → Nat
  | [] => if boundary prev none then 1 else 0
  | c :: rest => (if boundary prev (some c) then 1 else 0) + countBoundaries (some c) rest

/-- One left-to-right pass of the regex `\b p \b` (nonempty literal
`p = c0 :: pt`) over the indexed working text, as both
`FindAllStringIndex` and `ReplaceAllString` perform it: at each position
the leftmost match wins, matches do not overlap, and scanning resumes
after each match.  Returns the match count, the original-position span of
every match, and the characters that survive erasure. -/
def scanText (c0 : Char) (pt : List Char) :
    Nat → Option Char → List (Nat × Char) → Nat × List (List Nat) × List (Nat × Char)
  | _, _, [] => (0, [], [])
  | 0, _, _ => (0, [], [])
  | fuel + 1, prev, x :: rest =>
    if matchAt (c0 :: pt) prev ((x :: rest).map Prod.snd) then
      let r := scanText c0 pt fuel (some ((c0 :: pt).getLast (List.cons_ne_nil c0 pt)))
        ((x :: rest).drop (c0 :: pt).length)
      (r.1 + 1, ((x :: rest).take (c0 :: pt).length).map Prod.fst :: r.2.1, r.2.2)
    else
      let r := scanText c0 pt fuel (some x.2) rest
      (r.1, r.2.1, x :: r.2.2)

/-- One full pass of `\b (c0 :: pt) \b` over the working text.  The fuel
argument of `scanText` only bounds the recursion depth: every step
consumes at least one character, so a fuel equal to the text length never
runs out and the result is the plain left-to-right scan. -/
def scanFull (c0 : Char) (pt : List Char) (w : List (Nat × Char)) :
    Nat × List (List Nat) × List (Nat × Char) :=
  scanText c0 pt w.length none w

/-- Match count and spans of the regex `\b p \b` against the working
text, the model of `len(re.FindAllStringIndex(t, -1))` in `countMatches`
(utils.go:122-128).  An empty match credits an empty span. -/
def countSpans (p : List Char) (w : List (Nat × Char)) : Nat × List (List Nat) :=
  match p with
  | [] =>
    let c := countBoundaries none (w.map Prod.snd)
    (c, List.replicate c [])
  | c0 :: pt => ((scanFull c0 pt w).1, (scanFull c0 pt w).2.1)

/-- Erasure of every match of `\b p \b` from the working text, the model
of `re.ReplaceAllString(normText, "")` (utils.go:136-137, 147-148).  The
empty pattern only has empty matches, so it erases nothing. -/
def erasePattern (p : List Char) (w : List (Nat × Char)) : List (Nat × Char) :=
  match p with
  | [] => w
  | c0 :: pt => (scanFull c0 pt w).2.2

/-- One alias round of `CountBrandMentions`: count with the lowercased,
trimmed alias, then erase the matches of the lowercased (but NOT trimmed)
alias — the two patterns differ exactly as in the source, where
`countMatches` trims the alias but the erasing regex does not. -/
def aliasStep (al : List Char) (w : List (Nat × Char)) :
    Nat × List (List Nat) × List (Nat × Char) :=
  let cs := countSpans (trim (lower al)) w
  (cs.1, cs.2, erasePattern (lower al) w)

/-- Count-and-erase over one entity's alias list, in list order. -/
def processEntity (aliases : List (List Char)) (w : List (Nat × Char)) :
    Nat × List (List Nat) × List (Nat × Char) :=
  match aliases with
  | [] => (0, [], w)
  | a :: rest =>
    let s := aliasStep a w
    let r := processEntity rest s.2.2
    (s.1 + r.1, s.2.1 ++ r.2.1, r.2.2)

/-- Model of `counts[k] = v` on a Go map: update the key in place or
append it. -/
def setKey (k : List Char) (v : Nat) :
    List (List Char × Nat) → List (List Char × Nat)
  | [] => [(k, v)]
  | (k', v') :: rest => if k' = k then (k, v) :: rest else (k', v') :: setKey k v rest

/-- Model of map lookup on the association list. -/
def getVal (k : List Char) : List (List Char × Nat) → Option Nat
  | [] => none
  | (k', v) :: rest => if k' = k then some v else getVal k rest

/-- The competitor loop of `CountBrandMentions` (utils.go:142-151),
processing competitors in the iteration order fixed by the association
list. -/
def processCompetitors (comps : List (List Char × List (List Char)))
    (counts : List (List Char × Nat)) (w : List (Nat × Char)) :
    List (List Char × Nat) × List (List Nat) × List (Nat × Char) :=
  match comps with
  | [] => (counts, [], w)
  | (name, aliases) :: rest =>
    let r := processEntity aliases w
    let r2 := processCompetitors rest (setKey name r.1 counts) r.2.2
    (r2.1, r.2.1 ++ r2.2.1, r2.2.2)

/-- Instrumented model of `CountBrandMentions` (utils.go:112-154):
returns the mention counts, the original-text span of every counted
match (a ghost record the Go code does not form), and the final working
text.  The text is lowercased once; the brand is processed first, then
the competitors in iteration order. -/
def countBrandMentionsRun (text brandName : List Char) (brandAliases : List (List Char))
    (competitorAliases : List (List Char × List (List Char))) :
    List (List Char × Nat) × List (List Nat) × List (Nat × Char) :=
  let working := (lower text).enum
  let rb := processEntity brandAliases working
  let rc := processCompetitors competitorAliases (setKey brandName rb.1 []) rb.2.2
  (rc.1, rb.2.1 ++ rc.2.1, rc.2.2)

/-- Model of `CountBrandMentions`: the mapping it returns. -/
def countBrandMentions (text brandName : List Char) (brandAliases : List (List Char))
    (competitorAliases : List (List Char × List (List Char))) : List (List Char × Nat) :=
  (countBrandMentionsRun text brandName brandAliases competitorAliases).1

/-!
Span accounting.  Every position of the lowercased text occurs exactly
once in the enumerated working text, and each scan pass moves the
positions of its matches from the working text into the recorded spans,
so the positions credited across all entities and aliases stay
duplicate-free — provided counting and erasure use the same pattern,
which the trim hypothesis below guarantees.
-/

theorem scanText_spans_perm (c0 : Char) (pt : List Char) :
    ∀ (fuel : Nat) (w : List (Nat × Char)) (prev : Option Char), w.length ≤ fuel →
      ((scanText c0 pt fuel prev w).2.1.flatten
        ++ (scanText c0 pt fuel prev w).2.2.map Prod.fst).Perm (w.map Prod.fst) := by
  intro fuel
  induction fuel with
  | zero =>
    intro w prev h
    have hw : w = [] := List.length_eq_zero.mp (Nat.le_zero.mp h)
    subst hw
    simp [scanText]
  | succ fuel ih =>
    intro w prev h
    match w with
    | [] => simp [scanText]
    | x :: rest =>
      rw [scanText]
      by_cases hm : matchAt (c0 :: pt) prev ((x :: rest).map Prod.snd) = true
      · rw [if_pos hm]
        have hlen : ((x :: rest).drop (c0 :: pt).length).length ≤ fuel := by
          simp only [List.length_drop, List.length_cons] at *
          omega
        have hperm := ih ((x :: rest).drop (c0 :: pt).length)
          (some ((c0 :: pt).getLast (List.cons_ne_nil c0 pt))) hlen
        have hsplit : (x :: rest).map Prod.fst
            = ((x :: rest).take (c0 :: pt).length).map Prod.fst
              ++ ((x :: rest).drop (c0 :: pt).length).map Prod.fst := by
          rw [← List.map_append, List.take_append_drop]
        simp only [List.flatten_cons, List.append_assoc]
        rw [hsplit]
        exact List.Perm.append_left _ hperm
      · rw [if_neg hm]
        have hlen : rest.length ≤ fuel := by
          simp only [List.length_cons] at h
          omega
        have hperm := ih rest (some x.2) hlen
        simp only [List.map_cons]
        exact List.Perm.trans List.perm_middle (List.Perm.cons _ hperm)

theorem scanText_count (c0 : Char) (pt : List Char) :
    ∀ (fuel : Nat) (prev : Option Char) (w : List (Nat × Char)),
      (scanText c0 pt fuel prev w).1 = (scanText c0 pt fuel prev w).2.1.length := by
  intro fuel
  induction fuel with
  | zero =>
    intro prev w
    cases w <;> simp [scanText]
  | succ fuel ih =>
    intro prev w
    cases w with
    | nil => simp [scanText]
    | cons x rest =>
      rw [scanText]
      by_cases hm : matchAt (c0 :: pt) prev ((x :: rest).map Prod.snd) = true
      · rw [if_pos hm]
        simp [ih]
      · rw [if_neg hm]
        simp [ih]

theorem aliasStep_spans_perm (al : List Char) (w : List (Nat × Char))
    (h : trim (lower al) = lower al) :
    ((aliasStep al w).2.1.flatten ++ (aliasStep al w).2.2.map Prod.fst).Perm
      (w.map Prod.fst) := by
  unfold aliasStep
  rw [h]
  cases hl : lower al with
  | nil =>
    simp [countSpans, erasePattern, List.flatten_eq_nil_iff]
  | cons c0 pt =>
    simpa [countSpans, erasePattern] using
      scanText_spans_perm c0 pt w.length w none (Nat.le_refl _)

theorem aliasStep_count (al : List Char) (w : List (Nat × Char)) :
    (aliasStep al w).1 = (aliasStep al w).2.1.length := by
  unfold aliasStep
  cases hl : trim (lower al) with
  | nil => simp [countSpans]
  | cons c0 pt => simp [countSpans, scanFull, scanText_count]

theorem processEntity_spans_perm (aliases : List (List Char)) :
    ∀ (w : List (Nat × Char)), (∀ a ∈ aliases, trim (lower a) = lower a) →
      ((processEntity aliases w).2.1.flatten
        ++ (processEntity aliases w).2.2.map Prod.fst).Perm (w.map Prod.fst) := by
  induction aliases with
  | nil => intro w _; simp [processEntity]
  | cons a rest ih =>
    intro w h
    rw [processEntity]
    have h1 : ((aliasStep a w).2.1 ++ (processEntity rest (aliasStep a w).2.2).2.1).flatten
          ++ (processEntity rest (aliasStep a w).2.2).2.2.map Prod.fst
        = (aliasStep a w).2.1.flatten
          ++ ((processEntity rest (aliasStep a w).2.2).2.1.flatten
            ++ (processEntity rest (aliasStep a w).2.2).2.2.map Prod.fst) := by
      simp [List.flatten_append, List.append_assoc]
    rw [h1]
    exact List.Perm.trans
      (List.Perm.append_left _ (ih _ (fun x hx => h x (List.mem_cons_of_mem _ hx))))
      (aliasStep_spans_perm a w (h a (List.mem_cons_self _ _)))

theorem processEntity_count (aliases : List (List Char)) :
    ∀ (w : List (Nat × Char)),
      (processEntity aliases w).1 = (processEntity aliases w).2.1.length := by
  induction aliases with
  | nil => intro w; simp [processEntity]
  | cons a rest ih =>
    intro w
    rw [processEntity]
    simp [aliasStep_count, ih]

theorem processCompetitors_spans_perm (comps : List (List Char × List (List Char))) :
    ∀ (counts : List (List Char × Nat)) (w : List (Nat × Char)),
      (∀ p ∈ comps, ∀ a ∈ p.2, trim (lower a) = lower a) →
      ((processCompetitors comps counts w).2.1.flatten
        ++ (processCompetitors comps counts w).2.2.map Prod.fst).Perm (w.map Prod.fst) := by
  induction comps with
  | nil => intro counts w _; simp [processCompetitors]
  | cons p rest ih =>
    intro counts w h
    obtain ⟨name, aliases⟩ := p
    rw [processCompetitors]
    have h1 : ((processEntity aliases w).2.1
            ++ (processCompetitors rest (setKey name (processEntity aliases w).1 counts)
              (processEntity aliases w).2.2).2.1).flatten
          ++ (processCompetitors rest (setKey name (processEntity aliases w).1 counts)
            (processEntity aliases w).2.2).2.2.map Prod.fst
        = (processEntity aliases w).2.1.flatten
          ++ ((processCompetitors rest (setKey name (processEntity aliases w).1 counts)
              (processEntity aliases w).2.2).2.1.flatten
            ++ (processCompetitors rest (setKey name (processEntity aliases w).1 counts)
              (processEntity aliases w).2.2).2.2.map Prod.fst) := by
      simp [List.flatten_append, List.append_assoc]
    rw [h1]
    exact List.Perm.trans
      (List.Perm.append_left _ (ih _ _ (fun q hq => h q (List.mem_cons_of_mem _ hq))))
      (processEntity_spans_perm aliases w
        (fun a ha => h (name, aliases) (List.mem_cons_self _ _) a ha))

theorem flatten_append_assoc (A B : List (List Nat)) (C : List Nat) :
    (A ++ B).flatten ++ C = A.flatten ++ (B.flatten ++ C) := by
  simp [List.flatten_append, List.append_assoc]

theorem getVal_setKey (k k' : List Char) (v : Nat) (l : List (List Char × Nat)) :
    getVal k (setKey k' v l) = if k' = k then some v else getVal k l := by
  induction l with
  | nil => simp [setKey, getVal]
  | cons p rest ih =>
    obtain ⟨a, b⟩ := p
    by_cases ha : a = k'
    · subst ha
      by_cases hk : a = k <;> simp [setKey, getVal, hk]
    · by_cases hk : a = k
      · subst hk
        have : k' ≠ a := fun hh => ha hh.symm
        simp [setKey, getVal, ha, this]
      · simp [setKey, getVal, ha, hk, ih]

theorem valuesSum_setKey (k : List Char) (v : Nat) (l : List (List Char × Nat))
    (h : getVal k l = none) :
    ((setKey k v l).map Prod.snd).sum = (l.map Prod.snd).sum + v := by
  induction l with
  | nil => simp [setKey]
  | cons p rest ih =>
    obtain ⟨a, b⟩ := p
    by_cases ha : a = k
    · simp [getVal, ha] at h
    · simp only [getVal, ha, if_false] at h
      simp [setKey, ha, ih h]
      omega

theorem processCompetitors_valuesSum (comps : List (List Char × List (List Char))) :
    ∀ (counts : List (List Char × Nat)) (w : List (Nat × Char)),
      (∀ p ∈ comps, getVal p.1 counts = none) → (comps.map Prod.fst).Nodup →
      (((processCompetitors comps counts w).1.map Prod.snd).sum
        = (counts.map Prod.snd).sum + (processCompetitors comps counts w).2.1.length) := by
  induction comps with
  | nil => intro counts w _ _; simp [processCompetitors]
  | cons p rest ih =>
    intro counts w h hnd
    obtain ⟨name, aliases⟩ := p
    rw [processCompetitors]
    have hnone : getVal name counts = none := h (name, aliases) (List.mem_cons_self _ _)
    have hnd2 : (name :: rest.map Prod.fst).Nodup := by simpa using hnd
    have hnotin : name ∉ rest.map Prod.fst := (List.nodup_cons.mp hnd2).1
    have hrest : ∀ q ∈ rest, getVal q.1 (setKey name (processEntity aliases w).1 counts) = none := by
      intro q hq
      have hne : name ≠ q.1 := by
        intro he
        exact hnotin (he ▸ List.mem_map_of_mem Prod.fst hq)
      rw [getVal_setKey, if_neg hne]
      exact h q (List.mem_cons_of_mem _ hq)
    have hnd' : (rest.map Prod.fst).Nodup := (List.nodup_cons.mp hnd2).2
    have := ih (setKey name (processEntity aliases w).1 counts) (processEntity aliases w).2.2
      hrest hnd'
    simp only [this, valuesSum_setKey name _ counts hnone, List.length_append]
    rw [processEntity_count]
    omega

/-!  Claim C4: no double counting of matched spans. -/

/-- C4, counterexample.  With the whitespace-padded alias `"acme "` the
counting pattern (which trims the alias) and the erasing pattern (which
does not) differ: the brand is credited with the spans of both words
`acme` of `"acme acme"`, the erasure only removes `"acme "`, and the
competitor alias `"acme"` then re-matches the second word — the same
span is credited to two entities, so the credited positions repeat. -/
theorem c4_counterexample :
    ¬ (countBrandMentionsRun (str "acme acme") (str "B") [str "acme "]
        [(str "C", [str "acme"])]).2.1.flatten.Nodup := by
  decide

/-- C4, amended.  If every alias is invariant under whitespace trimming
(after lowercasing) — so the counting and erasing regexes agree — then
the spans credited across all entities and aliases occupy pairwise
distinct positions of the text, and when the entity names are distinct
the counts returned by `CountBrandMentions` sum to exactly the number of
matches found over the whole erasure process. -/
theorem c4_span_exclusive (text brandName : List Char) (brandAliases : List (List Char))
    (comps : List (List Char × List (List Char)))
    (h1 : ∀ a ∈ brandAliases, trim (lower a) = lower a)
    (h2 : ∀ p ∈ comps, ∀ a ∈ p.2, trim (lower a) = lower a)
    (h3 : (comps.map Prod.fst).Nodup) (h4 : brandName ∉ comps.map Prod.fst) :
    (countBrandMentionsRun text brandName brandAliases comps).2.1.flatten.Nodup
    ∧ ((countBrandMentions text brandName brandAliases comps).map Prod.snd).sum
        = (countBrandMentionsRun text brandName brandAliases comps).2.1.length := by
  constructor
  · have hperm :
        ((countBrandMentionsRun text brandName brandAliases comps).2.1.flatten
          ++ (countBrandMentionsRun text brandName brandAliases comps).2.2.map Prod.fst).Perm
          (((lower text).enum).map Prod.fst) := by
      rw [countBrandMentionsRun]
      have hb := processEntity_spans_perm brandAliases ((lower text).enum) h1
      have hc := processCompetitors_spans_perm comps
        (setKey brandName (processEntity brandAliases ((lower text).enum)).1 [])
        (processEntity brandAliases ((lower text).enum)).2.2 h2
      rw [flatten_append_assoc]
      exact List.Perm.trans (List.Perm.append_left _ hc) hb
    have hnodup : (((lower text).enum).map Prod.fst).Nodup := by
      rw [List.enum_map_fst]
      exact List.nodup_range _
    exact (hperm.nodup_iff.mpr hnodup).of_append_left
  · rw [countBrandMentions, countBrandMentionsRun]
    have hzero : ∀ p ∈ comps, getVal p.1
        (setKey brandName (processEntity brandAliases ((lower text).enum)).1 []) = none := by
      intro p hp
      have hne : brandName ≠ p.1 := by
        intro he
        exact h4 (he ▸ List.mem_map_of_mem Prod.fst hp)
      rw [getVal_setKey, if_neg hne]
      rfl
    have hsum := processCompetitors_valuesSum comps
      (setKey brandName (processEntity brandAliases ((lower text).enum)).1 [])
      (processEntity brandAliases ((lower text).enum)).2.2 hzero h3
    rw [hsum, List.length_append]
    have hbase : ((setKey brandName (processEntity brandAliases ((lower text).enum)).1 []).map
        Prod.snd).sum = (processEntity brandAliases ((lower text).enum)).1 := by
      simp [setKey]
    rw [hbase, processEntity_count]

/-- C4, witness for the amended theorem: a scenario with trimmed aliases
and distinct entity names. -/
theorem c4_span_exclusive_witness :
    (countBrandMentionsRun (str "acme beats globex") (str "A") [str "acme"]
        [(str "G", [str "globex"])]).2.1.flatten.Nodup
    ∧ ((countBrandMentions (str "acme beats globex") (str "A") [str "acme"]
        [(str "G", [str "globex"])]).map Prod.snd).sum
        = (countBrandMentionsRun (str "acme beats globex") (str "A") [str "acme"]
            [(str "G", [str "globex"])]).2.1.length :=
  c4_span_exclusive (str "acme beats globex") (str "A") [str "acme"]
    [(str "G", [str "globex"])] (by decide) (by decide) (by decide) (by decide)

/-!  Claim C10: the key set of the returned mapping. -/

theorem processCompetitors_getVal_isSome (comps : List (List Char × List (List Char))) :
    ∀ (counts : List (List Char × Nat)) (w : List (Nat × Char)) (k : List Char),
      (getVal k (processCompetitors comps counts w).1).isSome
        ↔ ((getVal k counts).isSome ∨ k ∈ comps.map Prod.fst) := by
  induction comps with
  | nil => intro counts w k; simp [processCompetitors]
  | cons p rest ih =>
    intro counts w k
    obtain ⟨name, aliases⟩ := p
    rw [processCompetitors]
    rw [ih]
    rw [getVal_setKey]
    by_cases he : name = k
    · simp [he]
    · have : k ≠ name := fun hh => he hh.symm
      simp [he, this]

theorem countSpans_nil (p : List Char) : countSpans p [] = (0, []) := by
  cases p <;> rfl

theorem erasePattern_nil (p : List Char) : erasePattern p [] = [] := by
  cases p <;> rfl

theorem aliasStep_nil (al : List Char) : aliasStep al [] = (0, [], []) := by
  simp [aliasStep, countSpans_nil, erasePattern_nil]

theorem processEntity_nil (aliases : List (List Char)) :
    processEntity aliases [] = (0, [], []) := by
  induction aliases with
  | nil => rfl
  | cons a rest ih => rw [processEntity, aliasStep_nil]; simpa using ih

theorem processCompetitors_getVal_nil (comps : List (List Char × List (List Char))) :
    ∀ (counts : List (List Char × Nat)) (k : List Char) (v : Nat),
      getVal k (processCompetitors comps counts []).1 = some v →
      getVal k counts = some v ∨ v = 0 := by
  induction comps with
  | nil => intro counts k v h; exact Or.inl h
  | cons p rest ih =>
    intro counts k v h
    obtain ⟨name, aliases⟩ := p
    rw [processCompetitors] at h
    rw [processEntity_nil] at h
    have := ih (setKey name 0 counts) k v h
    rcases this with hv | hv
    · rw [getVal_setKey] at hv
      by_cases he : name = k
      · rw [if_pos he] at hv
        right
        exact (Option.some_injective _ hv).symm
      · rw [if_neg he] at hv
        exact Or.inl hv
    · exact Or.inr hv

/-- C10, counterexample.  The competitor entity `"C"` has a single alias
`"ab"` with no whole-word match anywhere in the text `"a.b"` — it is
never mentioned — yet its returned count is 1: erasing the brand's
matched alias `"."` concatenates `"a"` and `"b"`, and the competitor's
alias matches the newly formed word. -/
theorem c10_counterexample :
    (countSpans (trim (lower (str "ab"))) ((lower (str "a.b")).enum)).1 = 0
    ∧ getVal (str "C")
        (countBrandMentions (str "a.b") (str "P") [str "."] [(str "C", [str "ab"])])
      = some 1 := by
  decide

/-- C10, amended.  The mapping `CountBrandMentions` returns has exactly
the key set consisting of the brand name and the competitor names —
entities are present (with some count) even when never mentioned — and
on the empty text every entity's count is 0.  Counts are naturally
non-negative.  (An entity whose aliases never match the original text
can still receive a positive count, because erasing an earlier entity's
matches can concatenate characters into a new whole word, as the
counterexample shows.) -/
theorem c10_key_set (text brandName : List Char) (brandAliases : List (List Char))
    (comps : List (List Char × List (List Char))) :
    (∀ k, (getVal k (countBrandMentions text brandName brandAliases comps)).isSome
      ↔ (k = brandName ∨ k ∈ comps.map Prod.fst))
    ∧ (text = [] → ∀ k v,
        getVal k (countBrandMentions text brandName brandAliases comps) = some v → v = 0) := by
  constructor
  · intro k
    rw [countBrandMentions, countBrandMentionsRun]
    rw [processCompetitors_getVal_isSome]
    rw [getVal_setKey]
    by_cases he : brandName = k
    · simp [he]
    · have : ¬ (k = brandName) := fun hh => he hh.symm
      simp [he, this, getVal]
  · intro htext k v h
    subst htext
    rw [countBrandMentions, countBrandMentionsRun] at h
    simp only [lower, List.map_nil, List.enum_nil] at h
    rw [processEntity_nil] at h
    rcases processCompetitors_getVal_nil comps _ k v h with hv | hv
    · rw [getVal_setKey] at hv
      by_cases he : brandName = k
      · rw [if_pos he] at hv
        exact (Option.some_injective _ hv).symm
      · rw [if_neg he] at hv
        cases hv
    · exact hv

/-!  Claim C3: shape of the alias list returned by `GenerateAliases`. -/

/-- C3, counterexample.  `GenerateAliases` enumerates the keys of a Go
map, so its output order is unspecified: the run that yields the
permutation below (a legal enumeration of the alias set of
`"Acme Corp"`) does not start with the lowercased trimmed name, refuting
the claimed first-element and fixed-order guarantee. -/
theorem c3_counterexample :
    [str "acmecorp", str "acme corp", str "acme", str "ac"].Perm
        (generateAliases (str "Acme Corp"))
      ∧ [str "acmecorp", str "acme corp", str "acme", str "ac"].head?
          ≠ some (lower (trim (str "Acme Corp"))) := by
  decide

/-- C3, amended.  Whatever enumeration order a run of `GenerateAliases`
produces, the output is a non-empty, duplicate-free list that contains
the lowercased, trimmed input name; the element order is unspecified. -/
theorem c3_alias_set (name : List Char) (out : List (List Char))
    (h : out.Perm (generateAliases name)) :
    out ≠ [] ∧ out.Nodup ∧ lower (trim name) ∈ out := by
  refine ⟨?_, h.nodup_iff.mpr (generateAliases_nodup name),
    h.mem_iff.mpr (mem_generateAliases_name name)⟩
  intro hn
  rw [hn] at h
  exact generateAliases_ne_nil name h.symm.eq_nil

/-- C3, witness for the amended theorem at the canonical enumeration of
the alias set of ''Acme Corp''. -/
theorem c3_alias_set_witness :
    generateAliases (str "Acme Corp") ≠ []
      ∧ (generateAliases (str "Acme Corp")).Nodup
      ∧ lower (trim (str "Acme Corp")) ∈ generateAliases (str "Acme Corp") :=
  c3_alias_set (str "Acme Corp") (generateAliases (str "Acme Corp")) (List.Perm.refl _)

/-!  Claim C1: the end-to-end mention-count scenario. -/

/-- C1, counterexample.  On the spec's end-to-end scenario the brand
count is 2, not 1: the alias `"acme"` makes a whole-word match both of
the word `"Acme"` and of the `"acme"` inside `"acme.com"` (the dot is
not a word character, so a boundary follows). -/
theorem c1_counterexample :
    getVal (str "Acme Corp")
        (countBrandMentions (str "Acme is better than Globex. Visit acme.com for details.")
          (str "Acme Corp") (generateAliases (str "Acme Corp"))
          [(str "Globex", generateAliases (str "Globex"))])
      ≠ some 1 := by
  decide

/-- C1, amended.  On the end-to-end scenario `CountBrandMentions` maps
`"Acme Corp"` to 2 and `"Globex"` to 1, whichever enumeration order the
brand's alias map yields. -/
theorem c1_scenario_counts (ba : List (List Char))
    (h : ba.Perm (generateAliases (str "Acme Corp"))) :
    getVal (str "Acme Corp")
        (countBrandMentions (str "Acme is better than Globex. Visit acme.com for details.")
          (str "Acme Corp") ba [(str "Globex", generateAliases (str "Globex"))])
      = some 2
    ∧ getVal (str "Globex")
        (countBrandMentions (str "Acme is better than Globex. Visit acme.com for details.")
          (str "Acme Corp") ba [(str "Globex", generateAliases (str "Globex"))])
      = some 1 := by
  have H : ∀ x ∈ (generateAliases (str "Acme Corp")).permutations',
      getVal (str "Acme Corp")
          (countBrandMentions (str "Acme is better than Globex. Visit acme.com for details.")
            (str "Acme Corp") x [(str "Globex", generateAliases (str "Globex"))])
        = some 2
      ∧ getVal (str "Globex")
          (countBrandMentions (str "Acme is better than Globex. Visit acme.com for details.")
            (str "Acme Corp") x [(str "Globex", generateAliases (str "Globex"))])
        = some 1 := by decide
  exact H ba (List.mem_permutations'.mpr h)

/-- C1, witness for the amended theorem at the canonical enumeration of
the brand's alias set. -/
theorem c1_scenario_counts_witness :
    getVal (str "Acme Corp")
        (countBrandMentions (str "Acme is better than Globex. Visit acme.com for details.")
          (str "Acme Corp") (generateAliases (str "Acme Corp"))
          [(str "Globex", generateAliases (str "Globex"))])
      = some 2
    ∧ getVal (str "Globex")
        (countBrandMentions (str "Acme is better than Globex. Visit acme.com for details.")
          (str "Acme Corp") (generateAliases (str "Acme Corp"))
          [(str "Globex", generateAliases (str "Globex"))])
      = some 1 :=
  c1_scenario_counts (generateAliases (str "Acme Corp")) (List.Perm.refl _)

/-!
`BrandPosition` (utils.go:246-293).  The function records, in a map, a
first-occurrence offset for the brand name and for EACH brand alias
under its own key (plain case-insensitive substring search, no word
boundaries), and for each competitor one offset under the competitor's
name (the last alias that occurs wins).  It then sorts the entries by
offset and returns one plus the index of the first entry whose key is
case-insensitively equal to the brand name, or 0 if there is none.
-/

/-- Offset search with accumulator: model of `strings.Index`. -/
def strIndexAux (needle : List Char) : List Char → Nat → Option Nat
  | [], i => if needle.isEmpty then some i else none
  | c :: t, i => if needle.isPrefixOf (c :: t) then some i else strIndexAux needle t (i + 1)

/-- Model of `strings.Index`: offset of the first occurrence of the
needle in the haystack, or `none` for Go's -1. -/
def strIndex (hay needle : List Char) : Option Nat := strIndexAux needle hay 0

/-- Model of `strings.EqualFold` on ASCII: equality up to case. -/
def equalFold (a b : List Char) : Bool := lower a == lower b

/-- Body of the brand loop of `BrandPosition` (utils.go:259-263): store
the first-occurrence offset of `b` under the key `b` itself when it
occurs. -/
def brandEntryFold (textLower : List Char) (m : List (List Char × Nat)) (b : List Char) :
    List (List Char × Nat) :=
  match strIndex textLower (lower b) with
  | some idx => setKey b idx m
  | none => m

/-- Body of the competitor loop of `BrandPosition` (utils.go:266-272):
store the offset of an occurring alias under the competitor's name, a
later alias overwriting an earlier one. -/
def compAliasFold (textLower name : List Char) (m : List (List Char × Nat))
    (al : List Char) : List (List Char × Nat) :=
  match strIndex textLower (lower al) with
  | some idx => setKey name idx m
  | none => m

/-- The `brandIndices` map of `BrandPosition` (utils.go:255-272) as an
association list in insertion order: first the brand name and each brand
alias under its own key, then one entry per competitor. -/
def brandIndices (text brandName : List Char) (brandAliases : List (List Char))
    (competitorAliases : List (List Char × List (List Char))) : List (List Char × Nat) :=
  let textLower := lower text
  let m := (brandName :: brandAliases).foldl (brandEntryFold textLower) []
  competitorAliases.foldl (fun m p => p.2.foldl (compAliasFold textLower p.1) m) m

/-- Stable insertion of an entry into a list sorted by offset. -/
def insertByIdx (x : List Char × Nat) : List (List Char × Nat) → List (List Char × Nat)
  | [] => [x]
  | y :: rest => if x.2 < y.2 then x :: y :: rest else y :: insertByIdx x rest

/-- Deterministic sort by first-occurrence offset.  The source uses
`sort.Slice`, which is unstable, over an unordered map enumeration; this
insertion sort fixes one legal outcome, and the properties proved below
do not depend on how ties between equal offsets are broken. -/
def sortByIdx : List (List Char × Nat) → List (List Char × Nat)
  | [] => []
  | x :: rest => insertByIdx x (sortByIdx rest)

/-- The ranking loop of `BrandPosition` (utils.go:286-290): one plus the
index of the first entry whose name is case-insensitively the brand
name, 0 when there is none. -/
def rankAux (brandName : List Char) : Nat → List (List Char × Nat) → Nat
  | _, [] => 0
  | i, e :: rest => if equalFold e.1 brandName then i + 1 else rankAux brandName (i + 1) rest

/-- Model of `BrandPosition` (utils.go:246-293). -/
def brandPosition (text brandName : List Char) (brandAliases : List (List Char))
    (competitorAliases : List (List Char × List (List Char))) : Nat :=
  rankAux brandName 0 (sortByIdx (brandIndices text brandName brandAliases competitorAliases))

theorem insertByIdx_perm (x : List Char × Nat) (l : List (List Char × Nat)) :
    (insertByIdx x l).Perm (x :: l) := by
  induction l with
  | nil => simp [insertByIdx]
  | cons y rest ih =>
    rw [insertByIdx]
    split
    · exact List.Perm.refl _
    · exact List.Perm.trans (List.Perm.cons y ih) (List.Perm.swap x y rest)

theorem sortByIdx_perm (l : List (List Char × Nat)) : (sortByIdx l).Perm l := by
  induction l with
  | nil => exact List.Perm.refl _
  | cons x rest ih =>
    exact List.Perm.trans (insertByIdx_perm x (sortByIdx rest)) (List.Perm.cons x ih)

theorem rankAux_eq_zero_iff (brandName : List Char) :
    ∀ (i : Nat) (l : List (List Char × Nat)),
      rankAux brandName i l = 0 ↔ ∀ e ∈ l, equalFold e.1 brandName = false := by
  intro i l
  induction l generalizing i with
  | nil => simp [rankAux]
  | cons e rest ih =>
    rw [rankAux]
    by_cases he : equalFold e.1 brandName = true
    · simp [he]
    · have he' : equalFold e.1 brandName = false := by
        cases h : equalFold e.1 brandName
        · rfl
        · exact absurd h he
      simp [he', ih]

theorem rankAux_le (brandName : List Char) :
    ∀ (i : Nat) (l : List (List Char × Nat)), rankAux brandName i l ≤ i + l.length := by
  intro i l
  induction l generalizing i with
  | nil => simp [rankAux]
  | cons e rest ih =>
    rw [rankAux]
    split
    · simp
    · have := ih (i + 1)
      simp only [List.length_cons]
      omega

theorem sortByIdx_head_min (l : List (List Char × Nat)) (e : List Char × Nat)
    (he : e ∈ l) (hmin : ∀ y ∈ l, y = e ∨ e.2 < y.2) :
    (sortByIdx l).head? = some e := by
  induction l with
  | nil => cases he
  | cons x t ih =>
    rw [sortByIdx]
    rcases List.mem_cons.mp he with hx | ht
    · subst hx
      cases hs : sortByIdx t with
      | nil => rfl
      | cons y ys =>
        have hy : y ∈ t := (sortByIdx_perm t).mem_iff.mp (hs ▸ List.mem_cons_self y ys)
        rcases hmin y (List.mem_cons_of_mem _ hy) with hxy | hlt
        · rw [insertByIdx]
          split
          · rfl
          · rw [hxy]; rfl
        · rw [insertByIdx, if_pos hlt]; rfl
    · have hmin' : ∀ y ∈ t, y = e ∨ e.2 < y.2 := fun y hy =>
        hmin y (List.mem_cons_of_mem _ hy)
      have hh := ih ht hmin'
      cases hs : sortByIdx t with
      | nil => rw [hs] at hh; cases hh
      | cons y ys =>
        rw [hs] at hh
        have hy : y = e := by simpa using hh
        subst hy
        rcases hmin x (List.mem_cons_self _ _) with hx | hlt
        · subst hx
          rw [insertByIdx]
          split
          · rfl
          · rfl
        · rw [insertByIdx, if_neg (by omega)]; rfl

theorem setKey_length_le (k : List Char) (v : Nat) (l : List (List Char × Nat)) :
    (setKey k v l).length ≤ l.length + 1 := by
  induction l with
  | nil => simp [setKey]
  | cons p rest ih =>
    obtain ⟨a, b⟩ := p
    rw [setKey]
    split
    · simp
    · simp only [List.length_cons]
      omega

theorem setKey_length_isSome (k : List Char) (v : Nat) (l : List (List Char × Nat))
    (h : (getVal k l).isSome) : (setKey k v l).length = l.length := by
  induction l with
  | nil => simp [getVal] at h
  | cons p rest ih =>
    obtain ⟨a, b⟩ := p
    rw [setKey]
    split
    · simp
    · next ha =>
      rw [getVal, if_neg ha] at h
      simp only [List.length_cons, ih h]

theorem getVal_isSome_setKey_self (k : List Char) (v : Nat) (l : List (List Char × Nat)) :
    (getVal k (setKey k v l)).isSome := by
  rw [getVal_setKey, if_pos rfl]
  rfl

theorem foldl_brandEntryFold_length (tl : List Char) :
    ∀ (L : List (List Char)) (m : List (List Char × Nat)),
      ((L.foldl (brandEntryFold tl) m).length ≤ m.length + L.length) := by
  intro L
  induction L with
  | nil => intro m; simp
  | cons b rest ih =>
    intro m
    rw [List.foldl_cons]
    have hstep : (brandEntryFold tl m b).length ≤ m.length + 1 := by
      rw [brandEntryFold]
      split
      · exact setKey_length_le _ _ _
      · omega
    have := ih (brandEntryFold tl m b)
    simp only [List.length_cons]
    omega

theorem foldl_compAliasFold_keeps (tl name : List Char) :
    ∀ (als : List (List Char)) (m : List (List Char × Nat)),
      (getVal name m).isSome →
      ((als.foldl (compAliasFold tl name) m).length = m.length
        ∧ (getVal name (als.foldl (compAliasFold tl name) m)).isSome) := by
  intro als
  induction als with
  | nil => intro m h; exact ⟨rfl, h⟩
  | cons al rest ih =>
    intro m h
    rw [List.foldl_cons]
    rw [compAliasFold]
    split
    · next idx _ =>
      have hlen : (setKey name idx m).length = m.length := setKey_length_isSome _ _ _ h
      have := ih (setKey name idx m) (getVal_isSome_setKey_self _ _ _)
      exact ⟨by omega, this.2⟩
    · exact ih m h

theorem foldl_compAliasFold_length (tl name : List Char) :
    ∀ (als : List (List Char)) (m : List (List Char × Nat)),
      (als.foldl (compAliasFold tl name) m).length ≤ m.length + 1 := by
  intro als
  induction als with
  | nil => intro m; simp
  | cons al rest ih =>
    intro m
    rw [List.foldl_cons]
    rw [compAliasFold]
    split
    · next idx _ =>
      have hkeep := foldl_compAliasFold_keeps tl name rest (setKey name idx m)
        (getVal_isSome_setKey_self _ _ _)
      have := setKey_length_le name idx m
      omega
    · exact ih m

theorem brandIndices_length_le (text brandName : List Char)
    (brandAliases : List (List Char)) (comps : List (List Char × List (List Char))) :
    (brandIndices text brandName brandAliases comps).length
      ≤ 1 + brandAliases.length + comps.length := by
  rw [brandIndices]
  have hbase := foldl_brandEntryFold_length (lower text) (brandName :: brandAliases) []
  simp only [List.length_cons, List.length_nil] at hbase
  have houter : ∀ (cs : List (List Char × List (List Char))) (m : List (List Char × Nat)),
      ((cs.foldl (fun m p => p.2.foldl (compAliasFold (lower text) p.1) m) m).length
        ≤ m.length + cs.length) := by
    intro cs
    induction cs with
    | nil => intro m; simp
    | cons p rest ih =>
      intro m
      rw [List.foldl_cons]
      have hin := foldl_compAliasFold_length (lower text) p.1 p.2 m
      have := ih (p.2.foldl (compAliasFold (lower text) p.1) m)
      simp only [List.length_cons]
      omega
  have := houter comps ((brandName :: brandAliases).foldl (brandEntryFold (lower text)) [])
  omega

/-!  Claims C2 and C9: behaviour of the position rank. -/

theorem brandPosition_eq_zero_iff (text brandName : List Char)
    (brandAliases : List (List Char)) (comps : List (List Char × List (List Char))) :
    brandPosition text brandName brandAliases comps = 0
      ↔ ∀ e ∈ brandIndices text brandName brandAliases comps,
          equalFold e.1 brandName = false := by
  rw [brandPosition, rankAux_eq_zero_iff]
  constructor
  · intro h e he
    exact h e ((sortByIdx_perm _).mem_iff.mpr he)
  · intro h e he
    exact h e ((sortByIdx_perm _).mem_iff.mp he)

/-- C2, counterexample.  The rank loop of `BrandPosition` only matches
entries whose KEY is case-insensitively the brand name, and a brand
alias is stored under its own name: with brand `"Acme Corp"` and alias
`"acme"`, the text `"acme rules"` contains the alias (offset 0) — so the
target owns the earliest occurrence — yet the function returns 0, not a
nonzero rank. -/
theorem c2_counterexample :
    brandPosition (str "acme rules") (str "Acme Corp") [str "acme"] [] = 0
    ∧ strIndex (lower (str "acme rules")) (lower (str "acme")) = some 0 := by
  decide

/-- C2, amended.  `BrandPosition` returns 0 exactly when no stored entry
(brand name, a brand alias under its own key, or a competitor name) is
case-insensitively equal to the brand name — occurrences of aliases
spelled differently from the brand name do NOT give the brand a rank —
and it returns 1 whenever an entry case-insensitively equal to the brand
name has a strictly smaller first-occurrence offset than every other
stored entry. -/
theorem c2_rank_zero_and_first (text brandName : List Char)
    (brandAliases : List (List Char)) (comps : List (List Char × List (List Char))) :
    (brandPosition text brandName brandAliases comps = 0
      ↔ ∀ e ∈ brandIndices text brandName brandAliases comps,
          equalFold e.1 brandName = false)
    ∧ (∀ e ∈ brandIndices text brandName brandAliases comps,
        equalFold e.1 brandName = true →
        (∀ y ∈ brandIndices text brandName brandAliases comps, y = e ∨ e.2 < y.2) →
        brandPosition text brandName brandAliases comps = 1) := by
  refine ⟨brandPosition_eq_zero_iff text brandName brandAliases comps, ?_⟩
  intro e he hfold hmin
  have hh := sortByIdx_head_min _ e he hmin
  rw [brandPosition]
  cases hs : sortByIdx (brandIndices text brandName brandAliases comps) with
  | nil => rw [hs] at hh; cases hh
  | cons y ys =>
    rw [hs] at hh
    have hy : y = e := by simpa using hh
    subst hy
    rw [rankAux, if_pos hfold]

/-- C9, counterexample.  With brand `"b"`, aliases `"a"` and `"ab"` and
NO competitors, the text `"a ab b"` produces three map entries (the two
aliases each get their own entry), the brand-name entry sorts last, and
`BrandPosition` returns 3 — outside the claimed range [0, 1 + N] = [0, 1]. -/
theorem c9_counterexample :
    brandPosition (str "a ab b") (str "b") [str "a", str "ab"] [] = 3
    ∧ 1 + List.length ([] : List (List Char × List (List Char))) < 3 := by
  decide

/-- C9, amended.  The rank returned by `BrandPosition` lies between 0
and 1 + A + N, where A is the number of brand aliases and N the number
of competitors (each of the brand name, the brand aliases and the
competitor names owns at most one sorted entry), and it is 0 exactly
when no stored entry is case-insensitively equal to the brand name. -/
theorem c9_position_range (text brandName : List Char)
    (brandAliases : List (List Char)) (comps : List (List Char × List (List Char))) :
    brandPosition text brandName brandAliases comps ≤ 1 + brandAliases.length + comps.length
    ∧ (brandPosition text brandName brandAliases comps = 0
      ↔ ∀ e ∈ brandIndices text brandName brandAliases comps,
          equalFold e.1 brandName = false) := by
  refine ⟨?_, brandPosition_eq_zero_iff text brandName brandAliases comps⟩
  have hlen : (brandIndices text brandName brandAliases comps).length
      ≤ 1 + brandAliases.length + comps.length := brandIndices_length_le _ _ _ _
  have hsort : (sortByIdx (brandIndices text brandName brandAliases comps)).length
      = (brandIndices text brandName brandAliases comps).length :=
    (sortByIdx_perm _).length_eq
  have := rankAux_le brandName 0 (sortByIdx (brandIndices text brandName brandAliases comps))
  rw [brandPosition]
  omega

/-!
Sentiment (utils.go:19-44).  The classifier is an injected capability;
`model` is the process-wide pointer set by `SetSentimentModel`, `none`
when uninitialized.  `AnalyzeSentiment` panics on a nil model, modelled
as `none`.  The library's raw score is an unsigned integer; the float
expression `int((float64(score)/2.0)*99.0)` is exact for such scores
(both the halving and the product stay well inside 53 bits), so it
equals the integer `score * 99 / 2`.
-/

/-- The rescaling and clamping of the raw score (utils.go:35-41). -/
def sentimentScore (raw : Nat) : Nat :=
  let score := raw * 99 / 2 + 1
  if score < 1 then 1 else if score > 100 then 100 else score

/-- Model of `AnalyzeSentiment` (utils.go:27-44): `none` is the panic on
an uninitialized model. -/
def analyzeSentiment (model : Option (List Char → Nat)) (text : List Char) : Option Nat :=
  match model with
  | none => none
  | some classify => some (sentimentScore (classify text))

/-- C7.  `AnalyzeSentiment` fails fast exactly when the sentiment model
is uninitialized; with an initialized model it returns the rescaled,
clamped score, which always lies in [1, 100]. -/
theorem c7_sentiment_contract :
    (∀ (model : Option (List Char → Nat)) (text : List Char),
      analyzeSentiment model text = none ↔ model = none)
    ∧ (∀ (classify : List Char → Nat) (text : List Char),
      analyzeSentiment (some classify) text = some (sentimentScore (classify text)))
    ∧ (∀ raw : Nat, 1 ≤ sentimentScore raw ∧ sentimentScore raw ≤ 100) := by
  refine ⟨?_, fun _ _ => rfl, ?_⟩
  · intro model text
    cases model <;> simp [analyzeSentiment]
  · intro raw
    rw [sentimentScore]
    constructor <;> (split <;> try split) <;> omega

/-!
`CalculateBrandVisibility` (utils.go:157-176).  Counts come from Go
`int` values that are always non-negative here (they are match counts),
modelled as `Nat`; the float64 result is modelled as an exact rational.
The inner loop breaks at the first alias that case-insensitively equals
the entity name, which is an existence test over the alias list.
-/

/-- Model of `CalculateBrandVisibility`: percentage share of the
mentions whose entity name case-insensitively matches one of the
target's aliases. -/
def calculateBrandVisibility (mentions : List (List Char × Nat))
    (brandAliases : List (List Char)) : ℚ :=
  let acc := mentions.foldl
    (fun (acc : Nat × Nat) nc =>
      (acc.1 + nc.2,
        if brandAliases.any (fun al => equalFold nc.1 al) then acc.2 + nc.2 else acc.2))
    (0, 0)
  if acc.1 = 0 then 0 else ((acc.2 : ℚ) / (acc.1 : ℚ)) * 100

theorem visibility_foldl (brandAliases : List (List Char)) :
    ∀ (mentions : List (List Char × Nat)) (a b : Nat),
      mentions.foldl
        (fun (acc : Nat × Nat) nc =>
          (acc.1 + nc.2,
            if brandAliases.any (fun al => equalFold nc.1 al) then acc.2 + nc.2 else acc.2))
        (a, b)
      = (a + (mentions.map Prod.snd).sum,
        b + ((mentions.filter
          (fun p => brandAliases.any (fun al => equalFold p.1 al))).map Prod.snd).sum) := by
  intro mentions
  induction mentions with
  | nil => intro a b; simp
  | cons p rest ih =>
    intro a b
    rw [List.foldl_cons]
    rw [ih]
    by_cases hp : brandAliases.any (fun al => equalFold p.1 al) = true
    · simp [List.filter_cons, hp]
      omega
    · have hp' : brandAliases.any (fun al => equalFold p.1 al) = false := by
        cases h : brandAliases.any (fun al => equalFold p.1 al)
        · rfl
        · exact absurd h hp
      simp [List.filter_cons, hp']
      omega

theorem filter_sum_of_pos_match (brandAliases : List (List Char)) :
    ∀ (mentions : List (List Char × Nat)),
      (∀ p ∈ mentions, 0 < p.2 → brandAliases.any (fun al => equalFold p.1 al) = true) →
      ((mentions.filter
        (fun p => brandAliases.any (fun al => equalFold p.1 al))).map Prod.snd).sum
      = (mentions.map Prod.snd).sum := by
  intro mentions
  induction mentions with
  | nil => intro _; rfl
  | cons p rest ih =>
    intro h
    have hrest := ih (fun q hq => h q (List.mem_cons_of_mem _ hq))
    by_cases hp : brandAliases.any (fun al => equalFold p.1 al) = true
    · simp [List.filter_cons, hp, hrest]
    · have hz : p.2 = 0 := by
        by_contra hnz
        exact hp (h p (List.mem_cons_self _ _) (Nat.pos_of_ne_zero hnz))
      have hp' : brandAliases.any (fun al => equalFold p.1 al) = false := by
        cases hh : brandAliases.any (fun al => equalFold p.1 al)
        · rfl
        · exact absurd hh hp
      simp [List.filter_cons, hp', hrest, hz]

/-- C8.  `CalculateBrandVisibility`: 0 when the counts sum to 0 (in
particular on the empty mapping); 100 when there are mentions and every
entity with a positive count matches one of the target's aliases
case-insensitively; and in general the share
`(targetCount / total) * 100`. -/
theorem c8_visibility_cases (mentions : List (List Char × Nat))
    (brandAliases : List (List Char)) :
    ((mentions.map Prod.snd).sum = 0 → calculateBrandVisibility mentions brandAliases = 0)
    ∧ ((mentions.map Prod.snd).sum ≠ 0 →
        (∀ p ∈ mentions, 0 < p.2 → brandAliases.any (fun al => equalFold p.1 al) = true) →
        calculateBrandVisibility mentions brandAliases = 100)
    ∧ ((mentions.map Prod.snd).sum ≠ 0 →
        calculateBrandVisibility mentions brandAliases
          = ((((mentions.filter
              (fun p => brandAliases.any (fun al => equalFold p.1 al))).map Prod.snd).sum : ℚ)
            / (((mentions.map Prod.snd).sum : Nat) : ℚ)) * 100) := by
  have hfold := visibility_foldl brandAliases mentions 0 0
  refine ⟨?_, ?_, ?_⟩
  · intro h
    rw [calculateBrandVisibility, hfold]
    simp [h]
  · intro h hall
    rw [calculateBrandVisibility, hfold]
    simp only [Nat.zero_add]
    rw [if_neg h]
    rw [filter_sum_of_pos_match brandAliases mentions hall]
    rw [div_self (by exact_mod_cast h)]
    norm_num
  · intro h
    rw [calculateBrandVisibility, hfold]
    simp only [Nat.zero_add]
    rw [if_neg h]

/-!
`ExtractDomains` (utils.go:88-111).  The pattern
`([a-zA-Z0-9-]+\.)+[a-zA-Z]{2,}` is matched with Go regexp's
leftmost-first greedy semantics: label characters do not include the
dot, so each `[a-zA-Z0-9-]+\.` group deterministically takes a maximal
label run followed by a dot; the `+` repetition takes as many groups as
possible and gives them back one at a time until the trailing
`[a-zA-Z]{2,}` (a maximal letter run of length at least 2) succeeds.
`FindAllString` then scans left to right, resuming after each match.
The deduplicating map is enumerated in an unspecified order, fixed here
as first-occurrence order; `time.Now()` is the explicit `now` argument.
-/

/-- Characters allowed in a domain label. -/
def labelChar (c : Char) : Bool := c.isAlphanum || c == '-'

/-- End offsets of the successive `(label '.')` groups parsed greedily
from the start of the text (fuel bounds the recursion depth and never
runs out at `fuel = length`). -/
def domainGroupsF : Nat → List Char → List Nat
  | 0, _ => []
  | fuel + 1, s =>
    let r := s.takeWhile labelChar
    if r.isEmpty then []
    else
      match s.drop r.length with
      | '.' :: rest =>
        (r.length + 1) :: (domainGroupsF fuel rest).map (fun n => n + (r.length + 1))
      | _ => []

/-- End offsets of the groups `([a-zA-Z0-9-]+\.)+` parsed at the start
of the text. -/
def domainGroups (s : List Char) : List Nat := domainGroupsF s.length s

/-- Length of the maximal letter run at the start of the text. -/
def alphaRunLen (s : List Char) : Nat := (s.takeWhile Char.isAlpha).length

/-- Length of the leftmost-first greedy match of the domain regex at the
start of the text, if any: the largest feasible number of groups wins,
and the trailing `[a-zA-Z]{2,}` takes a maximal letter run. -/
def matchDomainAt (s : List Char) : Option Nat :=
  (domainGroups s).reverse.findSome? (fun e =>
    if 2 ≤ alphaRunLen (s.drop e) then some (e + alphaRunLen (s.drop e)) else none)

/-- All matches of the domain regex, scanning left to right and resuming
after each match, as `FindAllString` does. -/
def findDomainsF : Nat → List Char → List (List Char)
  | 0, _ => []
  | fuel + 1, s =>
    match matchDomainAt s with
    | some n => s.take n :: findDomainsF fuel (s.drop n)
    | none =>
      match s with
      | [] => []
      | _ :: t => findDomainsF fuel t

/-- All matches of the domain regex in the text. -/
def findDomains (s : List Char) : List (List Char) := findDomainsF s.length s

/-- First-occurrence deduplication: one legal enumeration of the
`unique` set of `ExtractDomains`. -/
def dedupFirst (seen : List (List Char)) : List (List Char) → List (List Char)
  | [] => []
  | x :: rest =>
    if x ∈ seen then dedupFirst seen rest else x :: dedupFirst (x :: seen) rest

/-- The fields of `repository.DomainAnalysis` that `ExtractDomains`
sets; `ID` and `PromptID` are never set by the engine (zero values) and
are omitted.  `dtype` models the `Type` field. -/
structure DomainAnalysis where
  domain : List Char
  used : Nat
  avgCitations : ℚ
  dtype : List Char
  added : Nat
deriving DecidableEq

/-- Model of `ExtractDomains` (utils.go:88-111). -/
def extractDomains (text : List Char) (now : Nat) : List DomainAnalysis :=
  (dedupFirst [] (findDomains text)).map
    (fun d => { domain := d, used := 1, avgCitations := 0, dtype := str "unknown", added := now })

/-- Model of `WordVolume` (utils.go:179-181). -/
def wordVolume (text : List Char) : Nat := (fields text).length

/-- One prompt and its AI response (utils.go:14-17). -/
structure PromptResponse where
  prompt : List Char
  response : List Char
deriving DecidableEq

/-- The fields of `repository.BrandAnalysis` that `AnalyzeResponses`
sets; `ID`, `PromptID`, `UserEmail` and `Added` are never set by the
engine (zero values) and are omitted. -/
structure BrandAnalysis where
  brandName : List Char
  sentiment : Nat
  position : Nat
  visibility : ℚ
deriving DecidableEq

/-- The fields of `repository.MinimalAnalysis` that `AnalyzeResponses`
sets; `Tags` is never set (nil) and is omitted.  `added` models the
`time.Now()` timestamp. -/
structure MinimalAnalysis where
  prompt : List Char
  response : List Char
  sentiment : Nat
  position : Nat
  mentions : List (List Char × Nat)
  visibility : ℚ
  domains : List DomainAnalysis
  volume : Nat
  location : List Char
  brands : List BrandAnalysis
  added : Nat
deriving DecidableEq, Inhabited

/-- Model of `AnalyzeResponses` (utils.go:182-242).  The sentiment
capability is the injected `classify` raw-score function (the model
assumed initialized, as every analysis call requires); `now` models the
two `time.Now()` readings; the competitor association list fixes one
iteration order of the competitor map. -/
def analyzeResponses (responses : List PromptResponse) (country brandName : List Char)
    (brandAliases : List (List Char))
    (competitorAliases : List (List Char × List (List Char)))
    (classify : List Char → Nat) (now : Nat) : List MinimalAnalysis :=
  responses.map (fun r =>
    let mentions := countBrandMentions r.response brandName brandAliases competitorAliases
    let mainPosition := brandPosition r.response brandName brandAliases competitorAliases
    let mainSentiment := sentimentScore (classify r.response)
    let mainVisibility := calculateBrandVisibility mentions (brandName :: brandAliases)
    let brandAnalyses : List BrandAnalysis :=
      { brandName := brandName, sentiment := mainSentiment, position := mainPosition,
        visibility := mainVisibility }
      :: competitorAliases.map (fun p =>
        { brandName := p.1,
          sentiment := sentimentScore (classify r.response),
          position := brandPosition r.response p.1 p.2 competitorAliases,
          visibility := calculateBrandVisibility mentions p.2 })
    { prompt := r.prompt, response := r.response, sentiment := mainSentiment,
      position := mainPosition, mentions := mentions, visibility := mainVisibility,
      domains := extractDomains r.response now, volume := wordVolume r.response,
      location := country, brands := brandAnalyses, added := now })

/-!  Claim C6: order and content of the `brands` list. -/

/-- C6, counterexample.  The competitor collection is a Go map, which
has no caller-supplied order: enumerating the same two-competitor map in
its two legal iteration orders yields `brands` lists in different
orders, so no fixed claimed order (in particular not "input order") is
honoured by the code. -/
theorem c6_counterexample :
    (analyzeResponses [⟨str "p", str "t"⟩] (str "US") (str "B") []
        [(str "C1", [str "c1"]), (str "C2", [str "c2"])] (fun _ => 0) 0).map
      (fun res => res.brands.map (fun b => b.brandName))
    ≠ (analyzeResponses [⟨str "p", str "t"⟩] (str "US") (str "B") []
        [(str "C2", [str "c2"]), (str "C1", [str "c1"])] (fun _ => 0) 0).map
      (fun res => res.brands.map (fun b => b.brandName)) := by
  decide

/-- C6, amended.  For every iteration order of the competitor map, each
returned analysis carries one result per response, and its `brands`
list names the main brand first, followed by exactly one entry per
competitor in that iteration order. -/
theorem c6_brands_order (responses : List PromptResponse) (country brandName : List Char)
    (brandAliases : List (List Char))
    (competitorAliases : List (List Char × List (List Char)))
    (classify : List Char → Nat) (now : Nat) :
    (analyzeResponses responses country brandName brandAliases competitorAliases
        classify now).length = responses.length
    ∧ ∀ res ∈ analyzeResponses responses country brandName brandAliases competitorAliases
        classify now,
        res.brands.map (fun b => b.brandName) = brandName :: competitorAliases.map Prod.fst := by
  constructor
  · rw [analyzeResponses, List.length_map]
  · intro res hres
    rw [analyzeResponses] at hres
    obtain ⟨r, _, hr⟩ := List.mem_map.mp hres
    subst hr
    simp [List.map_map]

/-!  Claim C5: determinism of the orchestrator. -/

/-- Forget the wall-clock `added` fields of a result list. -/
def stripTimes (rs : List MinimalAnalysis) : List MinimalAnalysis :=
  rs.map (fun r =>
    { r with added := 0, domains := r.domains.map (fun d => { d with added := 0 }) })

/-- C5, counterexample.  Two invocations of `AnalyzeResponses` on the
same input read different `time.Now()` values, and the timestamps land
in the `added` fields of the results, so the two result lists are not
equal. -/
theorem c5_counterexample :
    analyzeResponses [⟨str "p", str ""⟩] (str "US") (str "Acme") [str "acme"] []
        (fun _ => 1) 0
    ≠ analyzeResponses [⟨str "p", str ""⟩] (str "US") (str "Acme") [str "acme"] []
        (fun _ => 1) 1 := by
  decide

/-- C5, amended.  With a deterministic sentiment capability and a fixed
iteration order for the competitor map and the domain set, two
invocations of `AnalyzeResponses` on the same input agree everywhere
except possibly the wall-clock `added` timestamps: stripping those
fields makes the two result lists equal, whatever clock each invocation
read. -/
theorem c5_deterministic (responses : List PromptResponse) (country brandName : List Char)
    (brandAliases : List (List Char))
    (competitorAliases : List (List Char × List (List Char)))
    (classify : List Char → Nat) (now₁ now₂ : Nat) :
    stripTimes (analyzeResponses responses country brandName brandAliases competitorAliases
        classify now₁)
    = stripTimes (analyzeResponses responses country brandName brandAliases competitorAliases
        classify now₂) := by
  rw [stripTimes, stripTimes, analyzeResponses, analyzeResponses, List.map_map, List.map_map]
  apply List.map_congr_left
  intro r _
  simp only [Function.comp_apply]
  congr 1
  rw [extractDomains, extractDomains, List.map_map, List.map_map]
  rfl

end AEO
